import Mathlib

/-!
Verification of the AMD water-quality pipeline scripts.

Each Python script relevant to the verified claims is shallowly embedded:
tabular columns become `List (Option ℚ)` (with `none` standing for a float
NaN / a null cell), geometries become abstract payloads with an explicit
distance function (the geometry algebra itself lives in a third-party
library), and the checkpointed main loop of the join script becomes an
explicit state-passing function.
-/

namespace AMDPipeline

/-! ## Geometry values as seen from python

`mine_proximity_join_pa8.py` inspects each query geometry with
`if geom is None or geom.is_empty`. -/

/-- A query geometry slot: `none` models python `None`, `empty` a geometry
with `is_empty = True`, and `geom a` a usable geometry with payload `a`. -/
inductive PyGeom (α : Type) where
  | none : PyGeom α
  | empty : PyGeom α
  | geom : α → PyGeom α
deriving DecidableEq, Repr

/-! ## STRtree nearest query

`tree.nearest(geom)` (shapely STRtree) returns a stored geometry at minimal
distance from the query; `idx_map[id(nearest)]` recovers its position in the
layer list. We model the pair as a first-argmin over the layer list together
with the minimal distance, parameterised by the distance function `d`. -/

/-- Index of the first geometry of the list minimizing `d a`, with the
minimal distance; `none` on an empty layer (an empty tree raises, which the
per-point `except` turns into a null result). -/
def nearestIdx (d : α → β → ℚ) (a : α) : List β → Option (Nat × ℚ)
  | [] => Option.none
  | b :: bs =>
    match nearestIdx d a bs with
    | Option.none => some (0, d a b)
    | some (i, m) => if d a b ≤ m then some (0, d a b) else some (i + 1, m)

/-- `compute_nearest_chunk` of `mine_proximity_join_pa8.py`: for each query
geometry of the chunk, the index of the nearest layer feature and the
distance to it; a `None`/empty geometry (or a failed query) yields
`(None, NaN)`, modelled as `(none, none)`. -/
def compute_nearest_chunk (d : α → β → ℚ) (chunk : List (PyGeom α)) (target : List β) :
    List (Option Nat × Option ℚ) :=
  chunk.map fun g =>
    match g with
    | PyGeom.geom a =>
      match nearestIdx d a target with
      | some (i, m) => (some i, some m)
      | Option.none => (Option.none, Option.none)
    | _ => (Option.none, Option.none)

theorem nearestIdx_isSome (d : α → β → ℚ) (a : α) (l : List β) (h : l ≠ []) :
    ∃ i m, nearestIdx d a l = some (i, m) := by
  cases l with
  | nil => exact absurd rfl h
  | cons b bs =>
    simp only [nearestIdx]
    cases hbs : nearestIdx d a bs with
    | none => exact ⟨0, d a b, rfl⟩
    | some p =>
      obtain ⟨j, mj⟩ := p
      by_cases hle : d a b ≤ mj
      · exact ⟨0, d a b, by simp [hle]⟩
      · exact ⟨j + 1, mj, by simp [hle]⟩

theorem nearestIdx_spec (d : α → β → ℚ) (a : α) (l : List β) (i : Nat) (m : ℚ)
    (h : nearestIdx d a l = some (i, m)) :
    (∃ b, l.get? i = some b ∧ m = d a b) ∧ ∀ b ∈ l, m ≤ d a b := by
  induction l generalizing i m with
  | nil => simp [nearestIdx] at h
  | cons b bs ih =>
    simp only [nearestIdx] at h
    cases hbs : nearestIdx d a bs with
    | none =>
      rw [hbs] at h
      cases bs with
      | nil =>
        simp at h
        obtain ⟨hi, hm⟩ := h
        subst hi; subst hm
        exact ⟨⟨b, by simp, rfl⟩, by simp⟩
      | cons c cs =>
        obtain ⟨j, mj, hj⟩ := nearestIdx_isSome d a (c :: cs) (by simp)
        rw [hj] at hbs
        simp at hbs
    | some p =>
      obtain ⟨j, mj⟩ := p
      rw [hbs] at h
      obtain ⟨⟨bj, hbj, hmj⟩, hall⟩ := ih j mj hbs
      by_cases hle : d a b ≤ mj
      · simp [hle] at h
        obtain ⟨hi, hm⟩ := h
        subst hi; subst hm
        refine ⟨⟨b, by simp, rfl⟩, ?_⟩
        intro x hx
        rcases List.mem_cons.mp hx with hx | hx
        · subst hx; exact le_refl _
        · exact le_trans hle (hall x hx)
      · simp [hle] at h
        obtain ⟨hi, hm⟩ := h
        subst hm
        refine ⟨⟨bj, by simpa [← hi] using hbj, hmj⟩, ?_⟩
        intro x hx
        rcases List.mem_cons.mp hx with hx | hx
        · subst hx; exact le_of_lt (lt_of_not_le hle)
        · exact hall x hx

/-- C1: for a non-empty target layer, each non-null non-empty query point is
tagged with the index of a layer geometry at minimal distance, and the
reported distance is the distance to that geometry. -/
theorem compute_nearest_chunk_correct (d : α → β → ℚ) (chunk : List (PyGeom α))
    (target : List β) (k : Nat) (a : α)
    (htgt : target ≠ []) (hk : chunk.get? k = some (PyGeom.geom a)) :
    ∃ i m, (compute_nearest_chunk d chunk target).get? k = some (some i, some m) ∧
      (∃ b, target.get? i = some b ∧ m = d a b) ∧
      ∀ b ∈ target, m ≤ d a b := by
  obtain ⟨i, m, hnear⟩ := nearestIdx_isSome d a target htgt
  obtain ⟨⟨b, hb, hm⟩, hall⟩ := nearestIdx_spec d a target i m hnear
  refine ⟨i, m, ?_, ⟨b, hb, hm⟩, hall⟩
  unfold compute_nearest_chunk
  rw [List.get?_map, hk]
  simp [hnear]

/-- Witness for C1 at a concrete chunk and layer. -/
theorem compute_nearest_chunk_correct_witness :
    ∃ i m, (compute_nearest_chunk (fun a b : ℚ => |a - b|)
        [PyGeom.geom 7, PyGeom.none] [1, 5, 20]).get? 0 = some (some i, some m) ∧
      (∃ b, ([1, 5, 20] : List ℚ).get? i = some b ∧ m = |(7 : ℚ) - b|) ∧
      ∀ b ∈ ([1, 5, 20] : List ℚ), m ≤ |(7 : ℚ) - b| :=
  compute_nearest_chunk_correct (fun a b : ℚ => |a - b|)
    [PyGeom.geom 7, PyGeom.none] [1, 5, 20] 0 7 (by decide) (by decide)

/-! ## Chunk splitting for the parallel path

`np.array_split(chunk, n)` splits a length-`L` sequence into `n` contiguous
blocks whose sizes differ by at most one, larger blocks first: the first
block has the ceiling size `⌈L / n⌉` and the rest is split into `n - 1`
blocks the same way. -/

/-- `np.array_split`: `n` contiguous row blocks, larger blocks first. -/
def array_split (l : List γ) : Nat → List (List γ)
  | 0 => []
  | n + 1 =>
    l.take ((l.length + n) / (n + 1)) :: array_split (l.drop ((l.length + n) / (n + 1))) n

theorem array_split_flatten (l : List γ) (n : Nat) (hn : 1 ≤ n) :
    (array_split l n).flatten = l := by
  induction n generalizing l with
  | zero => omega
  | succ n ih =>
    cases n with
    | zero =>
      simp [array_split]
    | succ k =>
      have h1 : array_split l (k + 1 + 1)
          = l.take ((l.length + (k + 1)) / (k + 1 + 1))
            :: array_split (l.drop ((l.length + (k + 1)) / (k + 1 + 1))) (k + 1) := rfl
      rw [h1, List.flatten_cons, ih _ (by omega), List.take_append_drop]

theorem compute_nearest_chunk_flatten (d : α → β → ℚ) (target : List β)
    (L : List (List (PyGeom α))) :
    (L.map (fun s => compute_nearest_chunk d s target)).flatten
      = compute_nearest_chunk d L.flatten target := by
  induction L with
  | nil => rfl
  | cons s L ih =>
    simp only [List.map_cons, List.flatten_cons, ih]
    simp [compute_nearest_chunk]

/-- C3: computing a chunk blockwise over the `np.array_split` blocks and
concatenating in block order equals computing the whole chunk at once, so
the parallel path and the sequential fallback agree. -/
theorem parallel_split_equals_whole (d : α → β → ℚ) (chunk : List (PyGeom α))
    (target : List β) (n : Nat) (hn : 1 ≤ n) :
    ((array_split chunk n).map (fun s => compute_nearest_chunk d s target)).flatten
      = compute_nearest_chunk d chunk target := by
  rw [compute_nearest_chunk_flatten, array_split_flatten chunk n hn]

/-- Witness for C3 at a concrete chunk split into three blocks. -/
theorem parallel_split_equals_whole_witness :
    ((array_split [PyGeom.geom (2 : ℚ), PyGeom.none, PyGeom.empty, PyGeom.geom 9] 3).map
        (fun s => compute_nearest_chunk (fun a b : ℚ => |a - b|) s [4, 10])).flatten
      = compute_nearest_chunk (fun a b : ℚ => |a - b|)
          [PyGeom.geom 2, PyGeom.none, PyGeom.empty, PyGeom.geom 9] [4, 10] :=
  parallel_split_equals_whole (fun a b : ℚ => |a - b|)
    [PyGeom.geom 2, PyGeom.none, PyGeom.empty, PyGeom.geom 9] [4, 10] 3 (by decide)

/-! ## Radius-bounded nearest join (`mine_proximity_join_pa.py`)

`mine_proximity_join_pa.py` delegates to
`gpd.sjoin_nearest(sites, mines, how="left", max_distance=SEARCH_RADIUS_M,
distance_col=...)`: the documented behaviour of that library call is that a
left row is tagged with the distance to its nearest right feature when that
distance is within `max_distance`, and left otherwise unmatched (null
distance). -/

/-- `SEARCH_RADIUS_M` of `mine_proximity_join_pa.py`. -/
def SEARCH_RADIUS_M : ℚ := 5000

/-- The tag `sjoin_nearest` puts on one site: distance to the nearest
feature when within the radius, null otherwise. -/
def radius_tag (d : α → β → ℚ) (r : ℚ) (tgt : List β) (a : α) : Option ℚ :=
  match nearestIdx d a tgt with
  | some (_, m) => if m ≤ r then some m else Option.none
  | Option.none => Option.none

/-- The per-layer distance column produced by the `sjoin_nearest` call of
`mine_proximity_join_pa.py` (documented library semantics). -/
def sjoin_nearest_dist (d : α → β → ℚ) (r : ℚ) (sites : List α) (tgt : List β) :
    List (Option ℚ) :=
  sites.map (radius_tag d r tgt)

theorem radius_tag_none_of_far (d : α → β → ℚ) (r : ℚ) (tgt : List β) (a : α)
    (hfar : ∀ b ∈ tgt, r < d a b) : radius_tag d r tgt a = Option.none := by
  unfold radius_tag
  cases htree : nearestIdx d a tgt with
  | none => rfl
  | some p =>
    obtain ⟨i, m⟩ := p
    obtain ⟨⟨b, hb, hm⟩, _⟩ := nearestIdx_spec d a tgt i m htree
    have hmem : b ∈ tgt := List.get?_mem hb
    have : r < m := hm ▸ hfar b hmem
    simp [not_le.mpr this]

theorem radius_tag_some (d : α → β → ℚ) (r : ℚ) (tgt : List β) (a : α) (q : ℚ)
    (hq : radius_tag d r tgt a = some q) :
    q ≤ r ∧ ∃ b ∈ tgt, q = d a b ∧ ∀ c ∈ tgt, q ≤ d a c := by
  unfold radius_tag at hq
  cases htree : nearestIdx d a tgt with
  | none => rw [htree] at hq; exact absurd hq (by simp)
  | some p =>
    obtain ⟨i, m⟩ := p
    rw [htree] at hq
    by_cases hr : m ≤ r
    · simp only [hr, if_true, Option.some.injEq] at hq
      subst hq
      obtain ⟨⟨b, hb, hm⟩, hall⟩ := nearestIdx_spec d a tgt i m htree
      exact ⟨hr, b, List.get?_mem hb, hm, hall⟩
    · simp [hr] at hq

/-- C2 (amended): in `mine_proximity_join_pa.py` the tagged distances are
radius-bounded — a site farther than 5000 m from every feature gets a null
distance, and every non-null tagged distance is at most 5000 and is the
distance to a nearest feature. -/
theorem sjoin_nearest_radius_bounded (d : α → β → ℚ) (sites : List α) (tgt : List β)
    (k : Nat) (a : α) (hk : sites.get? k = some a) :
    ∃ o, (sjoin_nearest_dist d SEARCH_RADIUS_M sites tgt).get? k = some o ∧
      ((∀ b ∈ tgt, SEARCH_RADIUS_M < d a b) → o = Option.none) ∧
      ∀ q, o = some q → q ≤ SEARCH_RADIUS_M ∧
        ∃ b ∈ tgt, q = d a b ∧ ∀ c ∈ tgt, q ≤ d a c := by
  refine ⟨radius_tag d SEARCH_RADIUS_M tgt a, ?_, ?_, ?_⟩
  · unfold sjoin_nearest_dist
    rw [List.get?_map, hk]
    rfl
  · exact radius_tag_none_of_far d SEARCH_RADIUS_M tgt a
  · exact radius_tag_some d SEARCH_RADIUS_M tgt a

/-- Witness for C2's amended theorem at a concrete site list. -/
theorem sjoin_nearest_radius_bounded_witness :
    ∃ o, (sjoin_nearest_dist (fun a b : ℚ => |a - b|) SEARCH_RADIUS_M
        [(0 : ℚ)] [(6000 : ℚ)]).get? 0 = some o ∧
      ((∀ b ∈ [(6000 : ℚ)], SEARCH_RADIUS_M < |(0 : ℚ) - b|) → o = Option.none) ∧
      ∀ q, o = some q → q ≤ SEARCH_RADIUS_M ∧
        ∃ b ∈ [(6000 : ℚ)], q = |(0 : ℚ) - b| ∧ ∀ c ∈ [(6000 : ℚ)], q ≤ |(0 : ℚ) - c| :=
  sjoin_nearest_radius_bounded (fun a b : ℚ => |a - b|) [0] [6000] 0 0 rfl

/-- C2 counterexample: `compute_nearest_chunk` of `mine_proximity_join_pa8.py`
applies no search radius — a point whose only feature lies 6000 m away is
tagged with the non-null distance 6000 > 5000, contradicting the claim that
the 5000 m radius bound holds in that script as well. -/
theorem pa8_no_radius_counterexample :
    compute_nearest_chunk (fun a b : ℚ => |a - b|) [PyGeom.geom 0] [6000]
        = [(some 0, some 6000)] ∧
      SEARCH_RADIUS_M < 6000 ∧
      ∀ b ∈ [(6000 : ℚ)], SEARCH_RADIUS_M < |(0 : ℚ) - b| := by
  refine ⟨?_, by norm_num [SEARCH_RADIUS_M], by norm_num [SEARCH_RADIUS_M]⟩
  simp [compute_nearest_chunk, nearestIdx]

/-! ## Checkpointed main loop of `mine_proximity_join_pa8.py`

The loop state is the file system as the script sees it for one mine
layer: the checkpoint files present (identified by the numeric part of
`{name}_chunk_{i*CHUNK_SIZE}.parquet`, kept in modification order) and the
rows appended so far to the merged output parquet. -/

/-- File-system state of one layer's join run. -/
structure JoinState (γ : Type) where
  cps : List Nat
  out : List γ
deriving DecidableEq, Repr

/-- `latest_checkpoint()`: the numeric suffix of the most recently modified
checkpoint file, or `0` when there is none. -/
def latest_checkpoint (cps : List Nat) : Nat := (cps.getLast?).getD 0

/-- `[chem.iloc[i:i+CHUNK_SIZE] for i in range(start, len(chem), CHUNK_SIZE)]`
applied to an already-sliced list: consecutive blocks of `cs` records.
Fuel-bounded so that it evaluates; fuel `l.length` suffices because every
step consumes at least one record. -/
def chunkListAux (cs : Nat) : Nat → List γ → List (List γ)
  | 0, _ => []
  | _ + 1, [] => []
  | fuel + 1, x :: xs => (x :: xs.take (cs - 1)) :: chunkListAux cs fuel (xs.drop (cs - 1))

def chunkList (cs : Nat) (l : List γ) : List (List γ) := chunkListAux cs l.length l

/-- One iteration of the chunk loop: a chunk whose checkpoint file exists is
skipped; otherwise the joined chunk is written as a new checkpoint (becoming
the most recently modified file) and appended to the output. -/
def runStep (chunk : List γ) (nm : Nat) (st : JoinState γ) : JoinState γ :=
  if nm ∈ st.cps then st
  else { cps := st.cps ++ [nm], out := st.out ++ chunk }

/-- The chunk loop of one layer: checkpoint names are taken from the
enumeration index of this run's chunk list (`f"{name}_chunk_{i*CHUNK_SIZE}"`
with `i` the position in `chunks`, not an absolute record offset). -/
def runLayer (cs : Nat) (chunks : List (List γ)) (st : JoinState γ) : JoinState γ :=
  chunks.enum.foldl (fun s p => runStep p.2 (p.1 * cs) s) st

/-- One invocation of the script on chemistry `chem` with one mine layer,
interrupted after `crash` chunk iterations (`none` = run to completion):
read `start_idx` from the latest checkpoint, reset the checkpoint directory
on a fresh start, build the chunk list from `start_idx` on, run the loop,
and clean the checkpoints up after a completed run. -/
def scriptRun (chem : List γ) (cs : Nat) (crash : Option Nat) (st : JoinState γ) :
    JoinState γ :=
  let s := latest_checkpoint st.cps
  let st1 := if s > 0 then st else { st with cps := [] }
  let chunks := chunkList cs (chem.drop s)
  match crash with
  | some k => runLayer cs (chunks.take k) st1
  | Option.none =>
    let st2 := runLayer cs chunks st1
    { st2 with cps := [] }

/-- The skip branch: an existing checkpoint leaves the state untouched
(nothing recomputed, nothing re-appended). -/
theorem runStep_skips_existing (chunk : List γ) (nm : Nat) (st : JoinState γ)
    (h : nm ∈ st.cps) : runStep chunk nm st = st := by
  unfold runStep
  simp [h]

/-- C4 (refutation of the completeness half): chunk size 1, chemistry
records `[0, 1, 2]`, one layer. A run killed after two chunk iterations has
appended records 0 and 1 and left checkpoints named 0 and 1. The resumed
run slices the chemistry from `start_idx = 1` but names its chunks from 0
again, mistakes the stale checkpoints for its own first two chunks, skips
both, and finishes with record 2 absent from the merged output. -/
theorem checkpoint_resume_loses_records :
    (scriptRun [0, 1, 2] 1 Option.none
        (scriptRun [0, 1, 2] 1 (some 2) (JoinState.mk [] []))).out = [0, 1] ∧
      ((scriptRun [0, 1, 2] 1 Option.none
        (scriptRun [0, 1, 2] 1 (some 2) (JoinState.mk [] []))).out.count 2 = 0) := by
  decide

/-! ## String operations

`String.replace` of the Lean core library does not reduce in the kernel, so
python's `str.replace` (pandas `.str.replace(..., regex=False)`) and
`str.strip` are modelled directly on character lists, fuel-bounded so that
they evaluate. -/

/-- Replace every non-overlapping occurrence of `pat`, scanning left to
right; fuel `s.length` suffices since each step consumes at least one
character. -/
def replaceFuel (pat repl : List Char) : Nat → List Char → List Char
  | 0, s => s
  | _ + 1, [] => []
  | fuel + 1, c :: cs =>
    if pat ≠ [] ∧ pat.isPrefixOf (c :: cs) then
      repl ++ replaceFuel pat repl fuel ((c :: cs).drop pat.length)
    else c :: replaceFuel pat repl fuel cs

/-- python `s.replace(pat, repl)`. -/
def strReplace (s pat repl : String) : String :=
  String.mk (replaceFuel pat.data repl.data s.data.length s.data)

/-- python `s.strip()`: drop leading and trailing whitespace. -/
def strStrip (s : String) : String :=
  String.mk (((s.data.dropWhile Char.isWhitespace).reverse.dropWhile Char.isWhitespace).reverse)

/-- python `pat in s`: substring containment. -/
def containsSub (pat : List Char) : List Char → Bool
  | [] => pat.isEmpty
  | c :: cs => pat.isPrefixOf (c :: cs) || containsSub pat cs

/-! ## Final tagging of `mine_proximity_join_pa.py`

`sites[dist_cols].min(axis=1)` and `sites[dist_cols].idxmin(axis=1)` on one
row of per-layer distance columns, followed by
`.str.replace("_dist_m", "", regex=False)` on the winning column name. -/

/-- `min(axis=1, skipna=True)` on one row: null only when every entry is
null. -/
def rowMin : List (Option ℚ) → Option ℚ
  | [] => Option.none
  | Option.none :: rest => rowMin rest
  | some q :: rest =>
    match rowMin rest with
    | Option.none => some q
    | some m => some (min q m)

/-- `idxmin(axis=1)` on one row: position of the first non-null entry
attaining the row minimum. -/
def rowIdxmin : List (Option ℚ) → Option Nat
  | [] => Option.none
  | Option.none :: rest => (rowIdxmin rest).map (· + 1)
  | some q :: rest =>
    match rowMin rest with
    | Option.none => some 0
    | some m => if q ≤ m then some 0 else (rowIdxmin rest).map (· + 1)

/-- `distance_col=f"{name}_dist_m"` of the `sjoin_nearest` call. -/
def distColName (n : String) : String := n ++ "_dist_m"

/-- `.str.replace("_dist_m", "", regex=False)`. -/
def stripDistSuffix (s : String) : String := strReplace s "_dist_m" ""

/-- `nearest_mine_type` of one site row given the layer names in column
order. -/
def nearest_mine_type (names : List String) (row : List (Option ℚ)) : Option String :=
  (rowIdxmin row).map fun i => stripDistSuffix (((names.map distColName).get? i).getD "")

/-- `nearest_mine_dist_m` of one site row. -/
def nearest_mine_dist_m (row : List (Option ℚ)) : Option ℚ := rowMin row

/-- The layer names of `LAYER_PATHS` in `mine_proximity_join_pa.py`. -/
def LAYER_NAMES : List String :=
  ["anthracite_surface", "bituminous_surface", "underground", "aml_inventory"]

theorem rowMin_le (row : List (Option ℚ)) (j : Nat) (q : ℚ)
    (hj : row.get? j = some (some q)) :
    ∃ m, rowMin row = some m ∧ m ≤ q := by
  induction row generalizing j with
  | nil => simp at hj
  | cons o rest ih =>
    cases j with
    | zero =>
      simp at hj
      subst hj
      cases hrest : rowMin rest with
      | none => exact ⟨q, by simp [rowMin, hrest], le_refl q⟩
      | some m => exact ⟨min q m, by simp [rowMin, hrest], min_le_left q m⟩
    | succ j =>
      simp only [List.get?_cons_succ] at hj
      obtain ⟨m, hm, hle⟩ := ih j hj
      cases o with
      | none => exact ⟨m, by simpa [rowMin] using hm, hle⟩
      | some p =>
        rw [show rowMin (some p :: rest)
            = (match rowMin rest with
               | Option.none => some p
               | some m => some (min p m)) from rfl, hm]
        exact ⟨min p m, rfl, le_trans (min_le_right p m) hle⟩

theorem rowIdxmin_spec (row : List (Option ℚ)) (m : ℚ) (hm : rowMin row = some m) :
    ∃ i, rowIdxmin row = some i ∧ row.get? i = some (some m) := by
  induction row generalizing m with
  | nil => simp [rowMin] at hm
  | cons o rest ih =>
    cases o with
    | none =>
      have hm' : rowMin rest = some m := by simpa [rowMin] using hm
      obtain ⟨i, hi, hget⟩ := ih m hm'
      exact ⟨i + 1, by simp [rowIdxmin, hi], by simpa using hget⟩
    | some q =>
      rw [show rowMin (some q :: rest)
          = (match rowMin rest with
             | Option.none => some q
             | some m => some (min q m)) from rfl] at hm
      cases hrest : rowMin rest with
      | none =>
        rw [hrest] at hm
        simp at hm
        subst hm
        exact ⟨0, by simp [rowIdxmin, hrest], by simp⟩
      | some mr =>
        rw [hrest] at hm
        simp at hm
        by_cases hle : q ≤ mr
        · refine ⟨0, by simp [rowIdxmin, hrest, hle], ?_⟩
          simp [← hm, min_eq_left hle]
        · obtain ⟨i, hi, hget⟩ := ih mr hrest
          refine ⟨i + 1, by simp [rowIdxmin, hrest, hle, hi], ?_⟩
          have : m = mr := by
            rw [← hm, min_eq_right (le_of_lt (lt_of_not_le hle))]
          simpa [this] using hget

/-- C5: a site row with at least one non-null per-layer distance is tagged
with `nearest_mine_dist_m` equal to the minimum of its non-null distances
and `nearest_mine_type` equal to the name of a layer attaining it (the
winning distance column with the `_dist_m` suffix removed). -/
theorem nearest_tag_spec (names : List String) (row : List (Option ℚ))
    (hlen : row.length = names.length)
    (hclean : ∀ n ∈ names, stripDistSuffix (distColName n) = n)
    (k : Nat) (q : ℚ) (hk : row.get? k = some (some q)) :
    ∃ m i nm, nearest_mine_dist_m row = some m ∧
      (∀ j x, row.get? j = some (some x) → m ≤ x) ∧
      rowIdxmin row = some i ∧ row.get? i = some (some m) ∧
      names.get? i = some nm ∧ nearest_mine_type names row = some nm := by
  obtain ⟨m, hm, _⟩ := rowMin_le row k q hk
  obtain ⟨i, hi, hget⟩ := rowIdxmin_spec row m hm
  have hilt : i < row.length := List.get?_eq_some.mp hget |>.1
  have hints : i < names.length := hlen ▸ hilt
  obtain ⟨nm, hnm⟩ : ∃ nm, names.get? i = some nm := by
    cases hnm : names.get? i with
    | none => exact absurd (List.get?_eq_none.mp hnm) (by omega)
    | some nm => exact ⟨nm, rfl⟩
  refine ⟨m, i, nm, hm, ?_, hi, hget, hnm, ?_⟩
  · intro j x hj
    obtain ⟨m', hm', hle'⟩ := rowMin_le row j x hj
    rw [hm] at hm'
    have : m = m' := Option.some_inj.mp hm'
    exact this ▸ hle'
  · unfold nearest_mine_type
    rw [hi]
    simp only [Option.map_some']
    rw [List.get?_map, hnm]
    simp [hclean nm (List.get?_mem hnm)]

/-- Witness for C5 at a concrete row over the four concrete layer names. -/
theorem nearest_tag_spec_witness :
    ∃ m i nm, nearest_mine_dist_m [Option.none, some 42, Option.none, some 7] = some m ∧
      (∀ j x, ([Option.none, some 42, Option.none, some (7 : ℚ)]).get? j = some (some x) → m ≤ x) ∧
      rowIdxmin [Option.none, some 42, Option.none, some 7] = some i ∧
      ([Option.none, some 42, Option.none, some (7 : ℚ)]).get? i = some (some m) ∧
      LAYER_NAMES.get? i = some nm ∧
      nearest_mine_type LAYER_NAMES [Option.none, some 42, Option.none, some 7] = some nm :=
  nearest_tag_spec LAYER_NAMES [Option.none, some 42, Option.none, some 7]
    (by decide) (by decide) 1 42 (by decide)

/-! ## `watershed_health_huc12.py`: normalization and Sickness Index

Columns are `List (Option ℚ)`; `none` models a float NaN. -/

/-- `Series.min()` over a list of (non-null) values. -/
def listMin : List ℚ → Option ℚ
  | [] => Option.none
  | x :: xs => some (match listMin xs with | Option.none => x | some m => min x m)

/-- `Series.max()` over a list of (non-null) values. -/
def listMax : List ℚ → Option ℚ
  | [] => Option.none
  | x :: xs => some (match listMax xs with | Option.none => x | some m => max x m)

/-- Float division: `none` models a non-finite result. Here the numerator is
always between `0` and the denominator, so a zero denominator gives `0/0`,
the float NaN. -/
def fdiv (a b : ℚ) : Option ℚ := if b = 0 then Option.none else some (a / b)

/-- `safe_norm` of `watershed_health_huc12.py`: min-max normalization of a
column against its non-null entries (`(series - valid.min()) /
(valid.max() - valid.min())`); an all-null column maps to an all-null
column. -/
def safe_norm (s : List (Option ℚ)) : List (Option ℚ) :=
  if s.filterMap id = [] then s.map fun _ => Option.none
  else
    let mn := (listMin (s.filterMap id)).getD 0
    let mx := (listMax (s.filterMap id)).getD 0
    s.map fun o => o.bind fun x => fdiv (x - mn) (mx - mn)

/-- `DataFrame.mean(axis=1, skipna=True)` on one row: mean of the non-null
entries, null when every entry is null. -/
def rowMean (row : List (Option ℚ)) : Option ℚ :=
  if row.filterMap id = [] then Option.none
  else some ((row.filterMap id).sum / (row.filterMap id).length)

/-- The `dist_inv` column: `1 - safe_norm(dist)` when the distance column
has a non-null entry (`data[dist_col].notna().any()`), otherwise a column of
NaN. -/
def dist_inv_col (dcol : List (Option ℚ)) : List (Option ℚ) :=
  if dcol.any Option.isSome then (safe_norm dcol).map (Option.map fun x => 1 - x)
  else dcol.map fun _ => Option.none

/-- Entry `j` of a column. -/
def entry (col : List (Option ℚ)) (j : Nat) : Option ℚ := (col.get? j).join

/-- `chem_score` at a row: mean over the normalized chemistry columns. -/
def chem_score (cols : List (List (Option ℚ))) (j : Nat) : Option ℚ :=
  rowMean ((cols.map safe_norm).map fun c => entry c j)

/-- `0.6 * chem_score + 0.4 * dist_inv`, null when either side is null. -/
def sickness_combine : Option ℚ → Option ℚ → Option ℚ
  | some a, some b => some ((6 / 10) * a + (4 / 10) * b)
  | _, _ => Option.none

/-- `Sickness_Index` at a row, from the raw chemistry columns and the raw
distance column. -/
def Sickness_Index (cols : List (List (Option ℚ))) (dcol : List (Option ℚ)) (j : Nat) :
    Option ℚ :=
  sickness_combine (chem_score cols j) (entry (dist_inv_col dcol) j)

theorem listMin_le (l : List ℚ) (m : ℚ) (hm : listMin l = some m) :
    ∀ x ∈ l, m ≤ x := by
  induction l generalizing m with
  | nil => simp [listMin] at hm
  | cons y ys ih =>
    intro x hx
    rw [show listMin (y :: ys)
        = some (match listMin ys with | Option.none => y | some m => min y m) from rfl] at hm
    cases hys : listMin ys with
    | none =>
      rw [hys] at hm
      simp at hm
      cases ys with
      | nil =>
        rcases List.mem_singleton.mp hx with h
        subst h; exact le_of_eq hm.symm
      | cons z zs => simp [listMin] at hys
    | some mys =>
      rw [hys] at hm
      simp at hm
      subst hm
      rcases List.mem_cons.mp hx with h | h
      · subst h; exact min_le_left _ _
      · exact le_trans (min_le_right _ _) (ih mys hys x h)

theorem le_listMax (l : List ℚ) (m : ℚ) (hm : listMax l = some m) :
    ∀ x ∈ l, x ≤ m := by
  induction l generalizing m with
  | nil => simp [listMax] at hm
  | cons y ys ih =>
    intro x hx
    rw [show listMax (y :: ys)
        = some (match listMax ys with | Option.none => y | some m => max y m) from rfl] at hm
    cases hys : listMax ys with
    | none =>
      rw [hys] at hm
      simp at hm
      cases ys with
      | nil =>
        rcases List.mem_singleton.mp hx with h
        subst h; exact le_of_eq hm
      | cons z zs => simp [listMax] at hys
    | some mys =>
      rw [hys] at hm
      simp at hm
      subst hm
      rcases List.mem_cons.mp hx with h | h
      · subst h; exact le_max_left _ _
      · exact le_trans (ih mys hys x h) (le_max_right _ _)

theorem listMin_isSome (l : List ℚ) (h : l ≠ []) : ∃ m, listMin l = some m := by
  cases l with
  | nil => exact absurd rfl h
  | cons x xs => exact ⟨_, rfl⟩

theorem listMax_isSome (l : List ℚ) (h : l ≠ []) : ∃ m, listMax l = some m := by
  cases l with
  | nil => exact absurd rfl h
  | cons x xs => exact ⟨_, rfl⟩

theorem listMin_mem (l : List ℚ) (m : ℚ) (hm : listMin l = some m) : m ∈ l := by
  induction l generalizing m with
  | nil => simp [listMin] at hm
  | cons y ys ih =>
    rw [show listMin (y :: ys)
        = some (match listMin ys with | Option.none => y | some m => min y m) from rfl] at hm
    cases hys : listMin ys with
    | none =>
      rw [hys] at hm; simp at hm
      simp [← hm]
    | some mys =>
      rw [hys] at hm; simp at hm
      rcases min_cases y mys with ⟨heq, _⟩ | ⟨heq, _⟩ <;> rw [heq] at hm
      · simp [← hm]
      · exact List.mem_cons_of_mem y (hm ▸ ih mys hys)

theorem listMax_mem (l : List ℚ) (m : ℚ) (hm : listMax l = some m) : m ∈ l := by
  induction l generalizing m with
  | nil => simp [listMax] at hm
  | cons y ys ih =>
    rw [show listMax (y :: ys)
        = some (match listMax ys with | Option.none => y | some m => max y m) from rfl] at hm
    cases hys : listMax ys with
    | none =>
      rw [hys] at hm; simp at hm
      simp [← hm]
    | some mys =>
      rw [hys] at hm; simp at hm
      rcases max_cases y mys with ⟨heq, _⟩ | ⟨heq, _⟩ <;> rw [heq] at hm
      · simp [← hm]
      · exact List.mem_cons_of_mem y (hm ▸ ih mys hys)

/-- Every non-null entry of a `safe_norm`ed column lies in `[0, 1]`. -/
theorem safe_norm_mem_unit (s : List (Option ℚ)) (y : ℚ)
    (hy : some y ∈ safe_norm s) : 0 ≤ y ∧ y ≤ 1 := by
  unfold safe_norm at hy
  by_cases hv : s.filterMap id = []
  · rw [if_pos hv] at hy
    obtain ⟨o, _, hfo⟩ := List.mem_map.mp hy
    exact Option.noConfusion hfo
  · rw [if_neg hv] at hy
    obtain ⟨mn, hmn⟩ := listMin_isSome _ hv
    obtain ⟨mx, hmx⟩ := listMax_isSome _ hv
    simp only [hmn, hmx, Option.getD_some] at hy
    obtain ⟨o, ho, hfo⟩ := List.mem_map.mp hy
    cases o with
    | none => simp at hfo
    | some x =>
      simp only [Option.some_bind] at hfo
      unfold fdiv at hfo
      by_cases hz : mx - mn = 0
      · simp [hz] at hfo
      · simp only [hz, if_false, Option.some.injEq] at hfo
        have hxv : x ∈ s.filterMap id := List.mem_filterMap.mpr ⟨some x, ho, rfl⟩
        have h1 : mn ≤ x := listMin_le _ mn hmn x hxv
        have h2 : x ≤ mx := le_listMax _ mx hmx x hxv
        have hlt : mn < mx := lt_of_le_of_ne (le_trans h1 h2) fun h => hz (by rw [h]; ring)
        subst hfo
        constructor
        · exact div_nonneg (by linarith) (by linarith)
        · rw [div_le_one (by linarith)]
          linarith

/-- A row mean of values in `[0, 1]` lies in `[0, 1]`. -/
theorem rowMean_unit (row : List (Option ℚ))
    (hrow : ∀ y : ℚ, some y ∈ row → 0 ≤ y ∧ y ≤ 1) (a : ℚ)
    (ha : rowMean row = some a) : 0 ≤ a ∧ a ≤ 1 := by
  unfold rowMean at ha
  by_cases hv : row.filterMap id = []
  · simp [hv] at ha
  · simp only [hv, if_false, Option.some.injEq] at ha
    have hmem : ∀ x ∈ row.filterMap id, 0 ≤ x ∧ x ≤ 1 := by
      intro x hx
      obtain ⟨o, ho, hox⟩ := List.mem_filterMap.mp hx
      exact hrow x (by simpa [← hox] using ho)
    have hlen : 0 < ((row.filterMap id).length : ℚ) := by
      have : 0 < (row.filterMap id).length := List.length_pos.mpr hv
      exact_mod_cast this
    have hsum0 : 0 ≤ (row.filterMap id).sum :=
      List.sum_nonneg fun x hx => (hmem x hx).1
    have hsum1 : (row.filterMap id).sum ≤ ((row.filterMap id).length : ℚ) := by
      have := List.sum_le_card_nsmul (row.filterMap id) 1 fun x hx => (hmem x hx).2
      simpa [nsmul_eq_mul] using this
    subst ha
    exact ⟨div_nonneg hsum0 (le_of_lt hlen), by rw [div_le_one hlen]; exact hsum1⟩

theorem entry_mem (col : List (Option ℚ)) (j : Nat) (y : ℚ)
    (h : entry col j = some y) : some y ∈ col := by
  have h2 : (col.get? j).join = some y := h
  rw [Option.join_eq_some] at h2
  exact List.get?_mem h2

/-- C6: a record with non-null `chem_score` and non-null `dist_inv` gets
`Sickness_Index = 0.6 * chem_score + 0.4 * dist_inv`, and that value lies in
`[0, 1]`. -/
theorem sickness_index_formula (cols : List (List (Option ℚ))) (dcol : List (Option ℚ))
    (j : Nat) (a b : ℚ)
    (ha : chem_score cols j = some a)
    (hb : entry (dist_inv_col dcol) j = some b) :
    Sickness_Index cols dcol j = some ((6 / 10) * a + (4 / 10) * b) ∧
      0 ≤ (6 / 10) * a + (4 / 10) * b ∧ (6 / 10) * a + (4 / 10) * b ≤ 1 := by
  have haunit : 0 ≤ a ∧ a ≤ 1 := by
    refine rowMean_unit _ ?_ a ha
    intro y hy
    obtain ⟨c, hc, hcy⟩ := List.mem_map.mp hy
    obtain ⟨c0, hc0, hc0c⟩ := List.mem_map.mp hc
    exact safe_norm_mem_unit c0 y (by rw [← hc0c] at hcy; exact entry_mem _ j y hcy)
  have hbunit : 0 ≤ b ∧ b ≤ 1 := by
    unfold dist_inv_col at hb
    by_cases hany : dcol.any Option.isSome
    · rw [if_pos hany] at hb
      have := entry_mem _ j b hb
      obtain ⟨o, ho, hob⟩ := List.mem_map.mp this
      cases o with
      | none => simp at hob
      | some z =>
        simp only [Option.map_some', Option.some.injEq] at hob
        obtain ⟨h0, h1⟩ := safe_norm_mem_unit dcol z ho
        constructor <;> [linarith; linarith]
    · rw [if_neg hany] at hb
      exfalso
      have := entry_mem _ j b hb
      obtain ⟨o, _, hob⟩ := List.mem_map.mp this
      exact Option.noConfusion hob
  refine ⟨?_, by nlinarith [haunit.1, haunit.2, hbunit.1, hbunit.2],
    by nlinarith [haunit.1, haunit.2, hbunit.1, hbunit.2]⟩
  unfold Sickness_Index
  rw [ha, hb]
  rfl

/-- Witness for C6 at one chemistry column and one distance column. -/
theorem sickness_index_formula_witness :
    Sickness_Index [[some 1, some 3]] [some 0, some 10] 0
        = some ((6 / 10) * 0 + (4 / 10) * 1) ∧
      0 ≤ (6 / 10) * (0 : ℚ) + (4 / 10) * 1 ∧ (6 / 10) * (0 : ℚ) + (4 / 10) * 1 ≤ 1 :=
  sickness_index_formula [[some 1, some 3]] [some 0, some 10] 0 0 1
    (by
      have hsn : safe_norm [some 1, some 3] = [some 0, some 1] := by
        unfold safe_norm
        rw [if_neg (by simp)]
        norm_num [listMin, listMax, fdiv, min_def, max_def]
      simp [chem_score, hsn, entry, rowMean])
    (by
      have hsn : safe_norm [some 0, some 10] = [some 0, some 1] := by
        unfold safe_norm
        rw [if_neg (by simp)]
        norm_num [listMin, listMax, fdiv, min_def, max_def]
      simp [dist_inv_col, hsn, entry])

theorem safe_norm_mono (s : List (Option ℚ)) (i j : Nat) (x y x' y' : ℚ)
    (hi : s.get? i = some (some x)) (hj : s.get? j = some (some y)) (hxy : x ≤ y)
    (hi' : (safe_norm s).get? i = some (some x'))
    (hj' : (safe_norm s).get? j = some (some y')) : x' ≤ y' := by
  unfold safe_norm at hi' hj'
  by_cases hv : s.filterMap id = []
  · rw [if_pos hv, List.get?_map, hi] at hi'
    simp at hi'
  · rw [if_neg hv] at hi' hj'
    obtain ⟨mn, hmn⟩ := listMin_isSome _ hv
    obtain ⟨mx, hmx⟩ := listMax_isSome _ hv
    simp only [hmn, hmx, Option.getD_some] at hi' hj'
    rw [List.get?_map, hi] at hi'
    rw [List.get?_map, hj] at hj'
    simp only [Option.map_some', Option.some_bind, Option.some.injEq] at hi' hj'
    unfold fdiv at hi' hj'
    by_cases hz : mx - mn = 0
    · simp [hz] at hi'
    · simp only [hz, if_false, Option.some.injEq] at hi' hj'
      have hxv : x ∈ s.filterMap id := List.mem_filterMap.mpr ⟨some x, List.get?_mem hi, rfl⟩
      have h1 : mn ≤ x := listMin_le _ mn hmn x hxv
      have h2 : x ≤ mx := le_listMax _ mx hmx x hxv
      have hpos : 0 < mx - mn := lt_of_le_of_ne (by linarith) (Ne.symm hz)
      subst hi'; subst hj'
      exact (div_le_div_right hpos).mpr (by linarith)

/-- With at least two distinct non-null entries, `safe_norm` sends an entry
holding the minimum to `0` and an entry holding the maximum to `1`. -/
theorem safe_norm_endpoints (s : List (Option ℚ)) (i j : Nat) (x y : ℚ)
    (hi : s.get? i = some (some x)) (hj : s.get? j = some (some y)) (hxy : x ≠ y) :
    (∀ k z, s.get? k = some (some z) → (∀ u ∈ s.filterMap id, z ≤ u) →
        (safe_norm s).get? k = some (some 0)) ∧
    (∀ k z, s.get? k = some (some z) → (∀ u ∈ s.filterMap id, u ≤ z) →
        (safe_norm s).get? k = some (some 1)) := by
  have hxv : x ∈ s.filterMap id := List.mem_filterMap.mpr ⟨some x, List.get?_mem hi, rfl⟩
  have hyv : y ∈ s.filterMap id := List.mem_filterMap.mpr ⟨some y, List.get?_mem hj, rfl⟩
  have hv : s.filterMap id ≠ [] := fun h => by rw [h] at hxv; simp at hxv
  obtain ⟨mn, hmn⟩ := listMin_isSome _ hv
  obtain ⟨mx, hmx⟩ := listMax_isSome _ hv
  have hmnx : mn ≤ x := listMin_le _ mn hmn x hxv
  have hmny : mn ≤ y := listMin_le _ mn hmn y hyv
  have hxmx : x ≤ mx := le_listMax _ mx hmx x hxv
  have hymx : y ≤ mx := le_listMax _ mx hmx y hyv
  have hlt : mn < mx := by
    rcases lt_or_gt_of_ne hxy with h | h
    · linarith
    · linarith
  have hz : mx - mn ≠ 0 := by intro h; linarith [sub_eq_zero.mp h]
  constructor
  · intro k z hk hzmin
    have hzmn : z = mn := le_antisymm (hzmin mn (listMin_mem _ mn hmn))
      (listMin_le _ mn hmn z (List.mem_filterMap.mpr ⟨some z, List.get?_mem hk, rfl⟩))
    unfold safe_norm
    rw [if_neg hv]
    simp only [hmn, hmx, Option.getD_some]
    rw [List.get?_map, hk]
    simp only [Option.map_some', Option.some_bind]
    unfold fdiv
    rw [if_neg hz, hzmn, sub_self, zero_div]
  · intro k z hk hzmax
    have hzmx : z = mx := le_antisymm
      (le_listMax _ mx hmx z (List.mem_filterMap.mpr ⟨some z, List.get?_mem hk, rfl⟩))
      (hzmax mx (listMax_mem _ mx hmx))
    unfold safe_norm
    rw [if_neg hv]
    simp only [hmn, hmx, Option.getD_some]
    rw [List.get?_map, hk]
    simp only [Option.map_some', Option.some_bind]
    unfold fdiv
    rw [if_neg hz, hzmx, div_self hz]

/-- When every pair of non-null entries of the series is equal
(`max = min`, so the unguarded division is `0/0`), every output entry of
`safe_norm` is null. This also covers the all-null series. -/
theorem safe_norm_degenerate (s : List (Option ℚ))
    (hconst : ∀ x y : ℚ, some x ∈ s → some y ∈ s → x = y) :
    ∀ o ∈ safe_norm s, o = Option.none := by
  intro o ho
  unfold safe_norm at ho
  by_cases hv : s.filterMap id = []
  · rw [if_pos hv] at ho
    obtain ⟨_, _, h⟩ := List.mem_map.mp ho
    exact h.symm
  · rw [if_neg hv] at ho
    obtain ⟨mn, hmn⟩ := listMin_isSome _ hv
    obtain ⟨mx, hmx⟩ := listMax_isSome _ hv
    simp only [hmn, hmx, Option.getD_some] at ho
    obtain ⟨o0, ho0, h⟩ := List.mem_map.mp ho
    have hmnv : mn ∈ s.filterMap id := listMin_mem _ mn hmn
    have hmxv : mx ∈ s.filterMap id := listMax_mem _ mx hmx
    obtain ⟨omn, homn, homn2⟩ := List.mem_filterMap.mp hmnv
    obtain ⟨omx, homx, homx2⟩ := List.mem_filterMap.mp hmxv
    have heq : mn = mx := by
      apply hconst
      · simpa [← homn2] using homn
      · simpa [← homx2] using homx
    cases o0 with
    | none => exact h.symm
    | some z =>
      simp only [Option.some_bind] at h
      unfold fdiv at h
      rw [heq, sub_self] at h
      simpa using h.symm

theorem sickness_combine_none (a : Option ℚ) :
    sickness_combine a Option.none = Option.none := by
  cases a <;> rfl

/-- A degenerate distance column (all non-null distances equal) nulls the
Sickness Index of every record. -/
theorem sickness_null_of_degenerate_dist (cols : List (List (Option ℚ)))
    (dcol : List (Option ℚ)) (j : Nat)
    (hconst : ∀ x y : ℚ, some x ∈ dcol → some y ∈ dcol → x = y) :
    Sickness_Index cols dcol j = Option.none := by
  have hdist : entry (dist_inv_col dcol) j = Option.none := by
    unfold dist_inv_col
    by_cases hany : dcol.any Option.isSome
    · rw [if_pos hany]
      have : ((safe_norm dcol).map (Option.map fun x => 1 - x)).get? j
          = ((safe_norm dcol).get? j).map (Option.map fun x => 1 - x) := List.get?_map _ _ _
      show (((safe_norm dcol).map (Option.map fun x => 1 - x)).get? j).join = Option.none
      rw [this]
      cases hg : (safe_norm dcol).get? j with
      | none => rfl
      | some o =>
        have : o = Option.none := safe_norm_degenerate dcol hconst o (List.get?_mem hg)
        subst this
        rfl
    · rw [if_neg hany]
      show ((dcol.map fun _ => Option.none).get? j).join = Option.none
      rw [List.get?_map]
      cases dcol.get? j <;> rfl
  unfold Sickness_Index
  rw [hdist]
  exact sickness_combine_none _

/-- C8: `safe_norm` is order-preserving on non-null entries; with two
distinct non-null values every non-null output lies in `[0, 1]` with the
minimum sent to 0 and the maximum to 1; an all-null series stays all-null;
a series whose non-null values are all equal is sent to all nulls by the
unguarded division, and a record normalized through such a distance series
gets a null Sickness Index. -/
theorem safe_norm_properties :
    (∀ (s : List (Option ℚ)) (i j : Nat) (x y x' y' : ℚ),
        s.get? i = some (some x) → s.get? j = some (some y) → x ≤ y →
        (safe_norm s).get? i = some (some x') → (safe_norm s).get? j = some (some y') →
        x' ≤ y') ∧
    (∀ (s : List (Option ℚ)) (i j : Nat) (x y : ℚ),
        s.get? i = some (some x) → s.get? j = some (some y) → x ≠ y →
        (∀ u : ℚ, some u ∈ safe_norm s → 0 ≤ u ∧ u ≤ 1) ∧
        (∀ k z, s.get? k = some (some z) → (∀ u ∈ s.filterMap id, z ≤ u) →
            (safe_norm s).get? k = some (some 0)) ∧
        (∀ k z, s.get? k = some (some z) → (∀ u ∈ s.filterMap id, u ≤ z) →
            (safe_norm s).get? k = some (some 1))) ∧
    (∀ s : List (Option ℚ), (∀ o ∈ s, o = Option.none) →
        ∀ o ∈ safe_norm s, o = Option.none) ∧
    (∀ s : List (Option ℚ), (∀ x y : ℚ, some x ∈ s → some y ∈ s → x = y) →
        ∀ o ∈ safe_norm s, o = Option.none) ∧
    (∀ (cols : List (List (Option ℚ))) (dcol : List (Option ℚ)) (j : Nat),
        (∀ x y : ℚ, some x ∈ dcol → some y ∈ dcol → x = y) →
        Sickness_Index cols dcol j = Option.none) := by
  refine ⟨safe_norm_mono, ?_, ?_, safe_norm_degenerate, sickness_null_of_degenerate_dist⟩
  · intro s i j x y hi hj hxy
    exact ⟨fun u hu => safe_norm_mem_unit s u hu,
      (safe_norm_endpoints s i j x y hi hj hxy).1,
      (safe_norm_endpoints s i j x y hi hj hxy).2⟩
  · intro s hnull o ho
    apply safe_norm_degenerate s _ o ho
    intro x y hx hy
    exact absurd (hnull _ hx) (by simp)

/-- Witness for C8 at a concrete series with two distinct values and a
concrete degenerate distance column. -/
theorem safe_norm_properties_witness :
    ((safe_norm [some 1, some 3, Option.none]).get? 0 = some (some 0) ∧
      (safe_norm [some 1, some 3, Option.none]).get? 1 = some (some 1)) ∧
    Sickness_Index [[some 1, some 2]] [some 5, some 5] 0 = Option.none := by
  constructor
  · have h := safe_norm_properties.2.1 [some 1, some 3, Option.none] 0 1 1 3
      (by decide) (by decide) (by norm_num)
    refine ⟨h.2.1 0 1 (by decide) ?_, h.2.2 1 3 (by decide) ?_⟩
    · intro u hu
      have h2 : u = 1 ∨ u = 3 := by simpa using hu
      rcases h2 with h1 | h1 <;> rw [h1] <;> norm_num
    · intro u hu
      have h2 : u = 1 ∨ u = 3 := by simpa using hu
      rcases h2 with h1 | h1 <;> rw [h1] <;> norm_num
  · apply safe_norm_properties.2.2.2.2
    intro x y hx hy
    have hx' : x = 5 := by simpa using hx
    have hy' : y = 5 := by simpa using hy
    rw [hx', hy']

/-! ## HUC12 ranking

`summary["Rank"] = summary["Sickness_Index"].rank(ascending=False,
method="dense").astype(int)` followed by `summary.sort_values("Rank")`. -/

/-- Dense descending rank of one value within the series of per-HUC12 mean
Sickness indices: 1 + the number of distinct strictly greater values. -/
def denseRank (values : List ℚ) (v : ℚ) : Nat :=
  (values.filter fun u => v < u).toFinset.card + 1

/-- The summary rows `(mean Sickness_Index, Rank)` sorted by `Rank`
ascending. -/
def rankedSummary (values : List ℚ) : List (ℚ × Nat) :=
  (values.map fun v => (v, denseRank values v)).mergeSort fun p q => decide (p.2 ≤ q.2)

theorem denseRank_strict_mono (values : List ℚ) (v w : ℚ)
    (hv : v ∈ values) (hwv : w < v) :
    denseRank values v < denseRank values w := by
  unfold denseRank
  have hsub : (values.filter fun u => v < u).toFinset
      ⊂ (values.filter fun u => w < u).toFinset := by
    constructor
    · intro u hu
      rw [List.mem_toFinset, List.mem_filter] at hu ⊢
      refine ⟨hu.1, ?_⟩
      have : v < u := by simpa using hu.2
      simp
      linarith
    · intro hcon
      have hvmem : v ∈ (values.filter fun u => w < u).toFinset := by
        rw [List.mem_toFinset, List.mem_filter]
        exact ⟨hv, by simpa using hwv⟩
      have := hcon hvmem
      rw [List.mem_toFinset, List.mem_filter] at this
      have : v < v := by simpa using this.2
      exact absurd this (lt_irrefl v)
  have := Finset.card_lt_card hsub
  omega

theorem denseRank_max_eq_one (values : List ℚ) (v : ℚ)
    (hmax : ∀ u ∈ values, u ≤ v) : denseRank values v = 1 := by
  unfold denseRank
  have : (values.filter fun u => v < u) = [] := by
    rw [List.filter_eq_nil]
    intro u hu
    simp only [decide_eq_true_eq, not_lt]
    exact hmax u hu
  rw [this]
  rfl

/-- C7: a strictly greater mean Sickness index gets a strictly smaller
`Rank`, a maximal mean gets `Rank 1`, and the summary table is sorted by
`Rank` ascending (a permutation of the ranked rows). -/
theorem huc12_rank_spec (values : List ℚ) (v w vm : ℚ)
    (hv : v ∈ values) (hw : w ∈ values) (hwv : w < v)
    (hvm : vm ∈ values) (hmax : ∀ u ∈ values, u ≤ vm) :
    denseRank values v < denseRank values w ∧
      denseRank values vm = 1 ∧
      List.Pairwise (fun p q : ℚ × Nat => p.2 ≤ q.2) (rankedSummary values) ∧
      (rankedSummary values).Perm (values.map fun u => (u, denseRank values u)) := by
  refine ⟨denseRank_strict_mono values v w hv hwv,
    denseRank_max_eq_one values vm hmax, ?_, ?_⟩
  · have hs := @List.sorted_mergeSort (ℚ × Nat)
      (fun p q : ℚ × Nat => decide (p.2 ≤ q.2))
      (fun a b c hab hbc => by
        simp only [decide_eq_true_eq] at hab hbc ⊢
        omega)
      (fun a b => by
        simp only [Bool.or_eq_true, decide_eq_true_eq]
        omega)
      (values.map fun u => (u, denseRank values u))
    refine (List.pairwise_iff_forall_sublist.mpr ?_)
    intro p q hsub
    have := List.pairwise_iff_forall_sublist.mp hs hsub
    simpa using this
  · exact List.mergeSort_perm _ _

/-- Witness for C7 at a concrete series of mean indices. -/
theorem huc12_rank_spec_witness :
    denseRank [2, 1, 2] 2 < denseRank [2, 1, 2] 1 ∧
      denseRank [2, 1, 2] 2 = 1 ∧
      List.Pairwise (fun p q : ℚ × Nat => p.2 ≤ q.2) (rankedSummary [2, 1, 2]) ∧
      (rankedSummary [2, 1, 2]).Perm ([2, 1, 2].map fun u => (u, denseRank [2, 1, 2] u)) :=
  huc12_rank_spec [2, 1, 2] 2 1 2 (by decide) (by decide) (by norm_num)
    (by decide)
    (by
      intro u hu
      have h2 : u = 2 ∨ u = 1 ∨ u = 2 := by simpa using hu
      rcases h2 with h1 | h1 | h1 <;> rw [h1] <;> norm_num)

/-! ## `amd_cleaner.py`

A chunk of the WQX CSV is a header list plus rows of cells aligned with the
headers. A cell is missing (`NaN`), a text value, or a number (`read_csv`
gives a column an object dtype only when it has text values, so text and
parsed numbers do not mix within a column). Number parsing
(`pd.to_numeric(..., errors="coerce")`) is an external library call, kept as
a parameter `toNum`. -/

/-- One CSV cell after pandas parsing. -/
inductive Cell where
  | na : Cell
  | txt : String → Cell
  | num : ℚ → Cell
deriving DecidableEq, Repr

/-- A chunk from `pd.read_csv(..., chunksize=...)`. -/
structure Chunk where
  headers : List String
  rows : List (List Cell)
deriving DecidableEq, Repr

/-- Keep the entries at positions where `mask` holds. -/
def maskFilter (mask : List Bool) (l : List α) : List α :=
  ((mask.zip l).filter fun p => p.1).map fun p => p.2

/-- Column mask of `chunk.loc[:, chunk.notna().any()]`: keep a column iff
some row has a non-null cell in it. -/
def notnaAnyMask (c : Chunk) : List Bool :=
  (List.range c.headers.length).map fun j =>
    c.rows.any fun r => (r.get? j).getD Cell.na ≠ Cell.na

/-- Column mask of `chunk.loc[:, ~chunk.columns.duplicated()]`: keep the
first occurrence of every header name. -/
def firstOccMask (hs : List String) : List Bool :=
  (List.range hs.length).map fun j => !((hs.take j).contains ((hs.get? j).getD ""))

/-- Apply a column mask to headers and every row. -/
def applyColMask (mask : List Bool) (c : Chunk) : Chunk :=
  { headers := maskFilter mask c.headers, rows := c.rows.map (maskFilter mask) }

/-- Header cleanup: `str.strip()` then replace `" "`, `"/"`, `"-"` with
`"_"`. -/
def cleanHeader (h : String) : String :=
  strReplace (strReplace (strReplace (strStrip h) " " "_") "/" "_") "-" "_"

/-- `.str.strip()` over the object-dtype columns, seen cell-wise: text cells
are stripped, missing and numeric cells are untouched. -/
def stripCell : Cell → Cell
  | Cell.txt v => Cell.txt (strStrip v)
  | c => c

/-- Headers selected for numeric coercion:
`"MeasureValue" in c or "Result" in c or "Detection" in c`. -/
def isNumTarget (h : String) : Bool :=
  containsSub "MeasureValue".data h.data || containsSub "Result".data h.data
    || containsSub "Detection".data h.data

/-- `pd.to_numeric(..., errors="coerce")` on one cell. -/
def coerceCell (toNum : String → Option ℚ) : Cell → Cell
  | Cell.txt v =>
    match toNum v with
    | some q => Cell.num q
    | Option.none => Cell.na
  | c => c

/-- Numeric coercion over one row, guided by the headers. -/
def coerceRow (toNum : String → Option ℚ) (headers : List String) (r : List Cell) :
    List Cell :=
  (headers.zip r).map fun p => if isNumTarget p.1 then coerceCell toNum p.2 else p.2

/-- `drop_duplicates()` keeping first occurrences, fuel-bounded so that it
evaluates (fuel `l.length` suffices). -/
def dedupFirstAux [DecidableEq α] : Nat → List α → List α
  | 0, _ => []
  | _ + 1, [] => []
  | fuel + 1, x :: xs => x :: dedupFirstAux fuel (xs.filter fun y => y ≠ x)

def dedupFirst [DecidableEq α] (l : List α) : List α := dedupFirstAux l.length l

/-- The per-chunk cleaning pipeline of `clean_wqx_file`: drop all-null
columns, drop duplicated column names, clean headers, strip text cells,
coerce numeric columns, drop duplicate rows. -/
def clean_chunk (toNum : String → Option ℚ) (c : Chunk) : Chunk :=
  let c1 := applyColMask (notnaAnyMask c) c
  let c2 := applyColMask (firstOccMask c1.headers) c1
  let c3 := Chunk.mk (c2.headers.map cleanHeader) (c2.rows.map (List.map stripCell))
  let c4 := Chunk.mk c3.headers (c3.rows.map (coerceRow toNum c3.headers))
  Chunk.mk c4.headers (dedupFirst c4.rows)

/-- The AMD parameters of interest (`amd_params`). -/
def amd_params : List String :=
  ["pH", "Iron", "Manganese", "Aluminum", "Sulfate", "Alkalinity", "Specific conductance"]

/-- `chunk["CharacteristicName"]` on one row: the cell under the first
matching header, `NaN` when absent. -/
def getCell (headers : List String) (r : List Cell) (h : String) : Cell :=
  match headers.findIdx? fun h0 => h0 == h with
  | some j => (r.get? j).getD Cell.na
  | Option.none => Cell.na

/-- `Series.isin(amd_params)` on one cell: true only for a text value equal
to one of the parameters (null and numeric cells are never members). -/
def cellIsAmd (c : Cell) : Bool :=
  match c with
  | Cell.txt v => amd_params.contains v
  | _ => false

/-- The rows of one chunk written to the AMD-subset file by
`clean_wqx_file`: the cleaned chunk filtered on
`CharacteristicName.isin(amd_params)` when the cleaned chunk has that
column, nothing otherwise. -/
def subset_rows (toNum : String → Option ℚ) (c : Chunk) : List (List Cell) :=
  if (clean_chunk toNum c).headers.contains "CharacteristicName" then
    (clean_chunk toNum c).rows.filter fun r =>
      cellIsAmd (getCell (clean_chunk toNum c).headers r "CharacteristicName")
  else []

/-- All rows written to the AMD-subset file over the chunked read. -/
def subset_file (toNum : String → Option ℚ) (chunks : List Chunk) : List (List Cell) :=
  (chunks.map (subset_rows toNum)).flatten

/-- C9: every row written to the AMD-subset output carries a
`CharacteristicName` among the seven AMD parameters; for a chunk whose
cleaned form has the `CharacteristicName` column the subset rows are exactly
the cleaned rows passing the `isin` filter; a chunk without that column
contributes no subset rows. -/
theorem amd_subset_spec (toNum : String → Option ℚ) (chunks : List Chunk) :
    (∀ c ∈ chunks, ∀ r ∈ subset_rows toNum c,
        ∃ nm, nm ∈ amd_params ∧
          getCell (clean_chunk toNum c).headers r "CharacteristicName" = Cell.txt nm) ∧
    (∀ c ∈ chunks, (clean_chunk toNum c).headers.contains "CharacteristicName" = true →
        subset_rows toNum c = (clean_chunk toNum c).rows.filter fun r =>
          cellIsAmd (getCell (clean_chunk toNum c).headers r "CharacteristicName")) ∧
    (∀ c ∈ chunks, ¬ (clean_chunk toNum c).headers.contains "CharacteristicName" = true →
        subset_rows toNum c = []) ∧
    ∀ r ∈ subset_file toNum chunks, ∃ c ∈ chunks, r ∈ subset_rows toNum c := by
  refine ⟨?_, ?_, ?_, ?_⟩
  · intro c _ r hr
    unfold subset_rows at hr
    by_cases hcol : (clean_chunk toNum c).headers.contains "CharacteristicName" = true
    · rw [if_pos hcol] at hr
      have hamd := List.of_mem_filter hr
      unfold cellIsAmd at hamd
      cases hcell : getCell (clean_chunk toNum c).headers r "CharacteristicName" with
      | na => rw [hcell] at hamd; exact absurd hamd (by simp)
      | num q => rw [hcell] at hamd; exact absurd hamd (by simp)
      | txt v =>
        rw [hcell] at hamd
        exact ⟨v, by simpa using hamd, rfl⟩
    · rw [if_neg hcol] at hr
      exact absurd hr (List.not_mem_nil r)
  · intro c _ hcol
    unfold subset_rows
    rw [if_pos hcol]
  · intro c _ hcol
    unfold subset_rows
    rw [if_neg hcol]
  · intro r hr
    unfold subset_file at hr
    obtain ⟨l, hl, hrl⟩ := List.mem_flatten.mp hr
    obtain ⟨c, hc, hcl⟩ := List.mem_map.mp hl
    exact ⟨c, hc, hcl ▸ hrl⟩

/-- Witness for C9 at a concrete two-row chunk. -/
theorem amd_subset_spec_witness :
    subset_rows (fun _ => Option.none)
        (Chunk.mk ["CharacteristicName "] [[Cell.txt "Iron"], [Cell.txt "Gold"]])
      = (clean_chunk (fun _ => Option.none)
          (Chunk.mk ["CharacteristicName "] [[Cell.txt "Iron"], [Cell.txt "Gold"]])).rows.filter
          (fun r => cellIsAmd (getCell
            (clean_chunk (fun _ => Option.none)
              (Chunk.mk ["CharacteristicName "] [[Cell.txt "Iron"], [Cell.txt "Gold"]])).headers
            r "CharacteristicName")) :=
  (amd_subset_spec (fun _ => Option.none)
      [Chunk.mk ["CharacteristicName "] [[Cell.txt "Iron"], [Cell.txt "Gold"]]]).2.1
    (Chunk.mk ["CharacteristicName "] [[Cell.txt "Iron"], [Cell.txt "Gold"]])
    (by simp) (by decide)

/-! ## `amd_feature_engineer.py`: the AMD impact label

`feat_df["AMD_impacted"] = np.where((feat_df.get("pH_mean", np.nan) < 5) |
(feat_df.get("Iron_mean", np.nan) > 10), 1, 0)`. A missing `pH_mean` or
`Iron_mean` (absent column or NaN entry) is modelled as `none`; float
comparisons against NaN are false. -/

/-- `x < c` as numpy evaluates it with a possibly-NaN `x`. -/
def ltNan (x : Option ℚ) (c : ℚ) : Bool :=
  match x with
  | some v => decide (v < c)
  | Option.none => false

/-- `x > c` as numpy evaluates it with a possibly-NaN `x`. -/
def gtNan (x : Option ℚ) (c : ℚ) : Bool :=
  match x with
  | some v => decide (c < v)
  | Option.none => false

/-- The `AMD_impacted` label of one site row of the feature matrix. -/
def AMD_impacted (pH_mean Iron_mean : Option ℚ) : Nat :=
  if ltNan pH_mean 5 || gtNan Iron_mean 10 then 1 else 0

/-- C10: `AMD_impacted` is 0 or 1; it is 1 exactly when `pH_mean < 5` or
`Iron_mean > 10` holds with a non-null value; a missing value fails its
comparison, so a site with both missing is labeled 0. -/
theorem amd_impacted_rule :
    (∀ ph iron : Option ℚ, AMD_impacted ph iron = 0 ∨ AMD_impacted ph iron = 1) ∧
    (∀ ph iron : Option ℚ, AMD_impacted ph iron = 1 ↔
        (∃ x, ph = some x ∧ x < 5) ∨ ∃ y, iron = some y ∧ 10 < y) ∧
    AMD_impacted Option.none Option.none = 0 := by
  refine ⟨?_, ?_, rfl⟩
  · intro ph iron
    unfold AMD_impacted
    by_cases h : (ltNan ph 5 || gtNan iron 10) = true
    · right; rw [if_pos h]
    · left; rw [if_neg h]
  · intro ph iron
    unfold AMD_impacted
    constructor
    · intro h1
      by_cases h : (ltNan ph 5 || gtNan iron 10) = true
      · rcases Bool.or_eq_true_iff.mp h with hlt | hgt
        · cases ph with
          | none => exact absurd hlt (by simp [ltNan])
          | some v =>
            left
            exact ⟨v, rfl, by simpa [ltNan] using hlt⟩
        · cases iron with
          | none => exact absurd hgt (by simp [gtNan])
          | some v =>
            right
            exact ⟨v, rfl, by simpa [gtNan] using hgt⟩
      · rw [if_neg h] at h1
        exact absurd h1 (by omega)
    · intro h1
      rcases h1 with ⟨x, hx, hx5⟩ | ⟨y, hy, hy10⟩
      · subst hx
        rw [if_pos (by simp [ltNan, hx5])]
      · subst hy
        rw [if_pos (by simp [gtNan, hy10])]

/-- Witness for C10 at concrete feature values. -/
theorem amd_impacted_rule_witness :
    (AMD_impacted (some 4) Option.none = 1 ↔
        ((∃ x, (some (4 : ℚ)) = some x ∧ x < 5) ∨
          ∃ y, (Option.none : Option ℚ) = some y ∧ 10 < y)) ∧
      AMD_impacted Option.none Option.none = 0 :=
  ⟨amd_impacted_rule.2.1 (some 4) Option.none, amd_impacted_rule.2.2⟩

end AMDPipeline
